import Mathlib

/-!
# EIS impedance formulas (eis.c)

Shallow embedding of the impedance formulas of `src/eis.c`, of the two GSL batch
evaluators built on them and of the element and circuit constructors.

* The C type `double` is embedded as an arbitrary field `K`; every definition translated
  from the source is computable and can be run at `K = ℚ`.  The theorems are stated at
  `K = ℝ` (exact arithmetic; floating-point rounding is not modelled).
* The C type `double complex` is embedded as the structure `DComplex K` of a real and an
  imaginary part with the textbook arithmetic.  A real operand of a mixed real/complex
  operation is promoted with `DComplex.ofReal`, the exact-arithmetic reading of C's usual
  arithmetic conversions.
* Division is total with `x / 0 = 0`; the theorems carry the hypotheses that keep every
  division away from a zero denominator wherever the claim has them.
* The libm functions `sqrt`, `csqrt` and `ctanh` are not part of the repository: the
  formulas take them as parameters, and the theorems instantiate them with the real
  square root, the principal complex square root and the complex hyperbolic tangent.
* A pointer to a heap object is an `Option` of the object, `none` for `NULL`; allocation
  always succeeds, and a freshly allocated vector holds arbitrary contents `uninit`.
-/

namespace Eis

/-! ## The data model -/

/-- C99 `double complex` over the scalar field `K`: a real and an imaginary part. -/
@[ext]
structure DComplex (K : Type) where
  re : K
  im : K
  deriving DecidableEq, Repr

namespace DComplex

variable {K : Type} [Field K]

/-- The conversion `(double complex) x` of a real operand. -/
def ofReal (x : K) : DComplex K := ⟨x, 0⟩

/-- The imaginary unit, the macro `I` of `complex.h`. -/
def I : DComplex K := ⟨0, 1⟩

instance : Add (DComplex K) where
  add z u := ⟨z.re + u.re, z.im + u.im⟩

instance : Sub (DComplex K) where
  sub z u := ⟨z.re - u.re, z.im - u.im⟩

instance : Mul (DComplex K) where
  mul z u := ⟨z.re * u.re - z.im * u.im, z.re * u.im + z.im * u.re⟩

/-- Squared modulus, the denominator of the complex quotient. -/
def normSq (z : DComplex K) : K := z.re * z.re + z.im * z.im

instance : Div (DComplex K) where
  div z u := ⟨(z.re * u.re + z.im * u.im) / normSq u, (z.im * u.re - z.re * u.im) / normSq u⟩

instance : Neg (DComplex K) where
  neg z := ⟨-z.re, -z.im⟩

/-- Complex conjugate. -/
def conj (z : DComplex K) : DComplex K := ⟨z.re, -z.im⟩

end DComplex

/-- The macro `creal` of `complex.h`. -/
def creal {K : Type} (z : DComplex K) : K := z.re

/-- The macro `cimag` of `complex.h`. -/
def cimag {K : Type} (z : DComplex K) : K := z.im

section Formulas

variable {K : Type} [Field K]

open DComplex

/-- Source `resistance` (eis.c:42): `return (double complex)r;`. -/
def resistance (r _w : K) : DComplex K := ofReal r

/-- Source `capacitance` (eis.c:73): `return 1.0 / (I * c * w);`. -/
def capacitance (c w : K) : DComplex K := ofReal 1 / (I * ofReal c * ofReal w)

/-- Source `inductance` (eis.c:85): `return I * l * w;`. -/
def inductance (l w : K) : DComplex K := I * ofReal l * ofReal w

/-- Source `warburg` (eis.c:116): `return sigma / sqrt(w) * (1 - I);`.
The libm function `sqrt` is a parameter. -/
def warburg (sqrt : K → K) (sigma w : K) : DComplex K :=
  ofReal (sigma / sqrt w) * (ofReal 1 - I)

/-- Source `finite_length_warburg` (eis.c:130):
`return r * ctanh(csqrt(I * tau * w)) / csqrt(I * tau * w);`.
The libm functions `csqrt` and `ctanh` are parameters. -/
def finite_length_warburg (csqrt ctanh : DComplex K → DComplex K) (r tau w : K) :
    DComplex K :=
  ofReal r * ctanh (csqrt (I * ofReal tau * ofReal w)) / csqrt (I * ofReal tau * ofReal w)

/-- Source `finite_space_warburg` (eis.c:144):
`return r / (ctanh(csqrt(I * tau * w)) * csqrt(I * tau * w));`.
The libm functions `csqrt` and `ctanh` are parameters. -/
def finite_space_warburg (csqrt ctanh : DComplex K → DComplex K) (r tau w : K) :
    DComplex K :=
  ofReal r / (ctanh (csqrt (I * ofReal tau * ofReal w)) * csqrt (I * ofReal tau * ofReal w))

end Formulas

/-! ## The GSL batch evaluators -/

section Batch

variable {K : Type} [Field K]

/-- GSL `gsl_vector`: the `size` entries of a vector of doubles, in index order. -/
abbrev gsl_vector (K : Type) := List K

/-- GSL `gsl_vector_complex`: the `size` entries of a vector of `gsl_complex` values;
a `gsl_complex` is the pair `dat[0], dat[1]` of real and imaginary part. -/
abbrev gsl_vector_complex (K : Type) := List (DComplex K)

/-- The memory the three pointer arguments `p`, `w`, `Z` of a batch evaluator refer to. -/
structure Mem (K : Type) where
  p : gsl_vector K
  w : gsl_vector K
  Z : gsl_vector_complex K
  deriving DecidableEq, Repr

/-- GSL `gsl_vector_get (v, i)`: the entry `i` of `v`; the range check `i < v->size`
fails with `none` (GSL calls its error handler). -/
def gsl_vector_get (v : gsl_vector K) (i : Nat) : Option K := v[i]?

/-- GSL `gsl_complex_rect (x, y)`: the `gsl_complex` with real part `x`, imaginary part `y`. -/
def gsl_complex_rect (x y : K) : DComplex K := ⟨x, y⟩

/-- GSL `gsl_vector_complex_set (Z, i, z)`: store `z` into entry `i` of `Z`; the range
check `i < Z->size` fails with `none` (GSL calls its error handler). -/
def gsl_vector_complex_set (Z : gsl_vector_complex K) (i : Nat) (z : DComplex K) :
    Option (gsl_vector_complex K) :=
  if i < Z.length then some (Z.set i z) else none

/-- The loop `for (i = 0; i < w->size; i++) { ... }` of `gsl_resistance` (eis.c:57-63),
entered with loop counter `i`; it returns the final counter and memory.  The counter is a
`size_t` bounded by `w->size`, so it never wraps. -/
def gsl_resistance_loop (r : K) (i : Nat) (m : Mem K) : Option (Nat × Mem K) :=
  if i < m.w.length then
    match gsl_vector_get m.w i with
    | none => none
    | some wi =>
      let z := resistance r wi
      let _z := gsl_complex_rect (creal z) (cimag z)
      match gsl_vector_complex_set m.Z i _z with
      | none => none
      | some Z' => gsl_resistance_loop r (i + 1) { p := m.p, w := m.w, Z := Z' }
  else some (i, m)
termination_by m.w.length - i

/-- Source `gsl_resistance` (eis.c:47): `r = gsl_vector_get(p, 0)`, then the loop from
`i = 0`; the result is the memory after the call, `none` when a range check fails. -/
def gsl_resistance (m : Mem K) : Option (Mem K) :=
  match gsl_vector_get m.p 0 with
  | none => none
  | some r => (gsl_resistance_loop r 0 m).map Prod.snd

/-- The loop `for (i = 0; i < w->size; i++) { ... }` of `gsl_inductance` (eis.c:100-106),
entered with loop counter `i`; it returns the final counter and memory. -/
def gsl_inductance_loop (r : K) (i : Nat) (m : Mem K) : Option (Nat × Mem K) :=
  if i < m.w.length then
    match gsl_vector_get m.w i with
    | none => none
    | some wi =>
      let z := inductance r wi
      let _z := gsl_complex_rect (creal z) (cimag z)
      match gsl_vector_complex_set m.Z i _z with
      | none => none
      | some Z' => gsl_inductance_loop r (i + 1) { p := m.p, w := m.w, Z := Z' }
  else some (i, m)
termination_by m.w.length - i

/-- Source `gsl_inductance` (eis.c:90): `r = gsl_vector_get(p, 0)`, then the loop from
`i = 0`; the result is the memory after the call, `none` when a range check fails. -/
def gsl_inductance (m : Mem K) : Option (Mem K) :=
  match gsl_vector_get m.p 0 with
  | none => none
  | some r => (gsl_inductance_loop r 0 m).map Prod.snd

/-- The batch contract in the spec's words: "given an ordered sequence of ω values, produce
the corresponding ordered sequence of complex impedances, preserving index correspondence
(`Z[i]` corresponds to `ω[i]`)". -/
def spec_batch (formula : K → DComplex K) (omega : List K) : List (DComplex K) :=
  omega.map formula

end Batch

/-! ## Elements and circuits -/

section Elements

variable {K : Type} [Field K]

/-- Modelled from the spec: the enum `element_type` of `electrox.h`, which is not under
`src/`.  The source names the members `R` and `L`; the spec lists six kinds: "Resistor,
Capacitor, Inductor, SemiInfiniteWarburg, FiniteLengthWarburg, FiniteSpaceWarburg". -/
inductive element_type where
  | R
  | C
  | L
  | SemiInfiniteWarburg
  | FiniteLengthWarburg
  | FiniteSpaceWarburg
  deriving DecidableEq, Repr

/-- Modelled from the spec: "Each kind has a fixed parameter arity (1 for R/L/C, 2 for the
Warburg variants requiring resistance/pseudo-resistance and characteristic time)". -/
def arity : element_type → Nat
  | element_type.R => 1
  | element_type.C => 1
  | element_type.L => 1
  | element_type.SemiInfiniteWarburg => 2
  | element_type.FiniteLengthWarburg => 2
  | element_type.FiniteSpaceWarburg => 2

/-- The struct `EisElement` of `electrox.h`, with the fields `eis.c` assigns: the name, the
type, the bound batch evaluator `Z` (a function pointer, `none` for `NULL`) and the
parameter vector `p` (a `gsl_vector *`, `none` for `NULL`).  The method pointers `__del__`
and `__init__` always hold the same two functions and are left out. -/
structure EisElement (K : Type) where
  name : String
  type : element_type
  Z : Option (Mem K → Option (Mem K))
  p : Option (gsl_vector K)

/-- GSL `gsl_vector_alloc (n)`: a new vector of `n` entries whose contents are not
initialised; `uninit` is what the fresh block happens to hold.  Allocation failure is not
modelled. -/
def gsl_vector_alloc (uninit : Nat → K) (n : Nat) : gsl_vector K :=
  (List.range n).map uninit

/-- Source `EisElement__init__` (eis.c:174): copy the name, store the type, then the
`switch` on the type with the cases `R`, `L` and `default`.  Every field is assigned, so
the result does not depend on what `self` held before. -/
def EisElement__init__ (uninit : Nat → K) (name : String) (type : element_type) :
    EisElement K :=
  match type with
  | element_type.R =>
    { name := name, type := type, Z := some gsl_resistance,
      p := some (gsl_vector_alloc uninit 1) }
  | element_type.L =>
    { name := name, type := type, Z := some gsl_inductance,
      p := some (gsl_vector_alloc uninit 1) }
  | _ => { name := name, type := type, Z := none, p := none }

/-- Source `EisElement__new__` (eis.c:156): allocate, initialise, `return self;`.  The
result is the returned pointer, `none` for `NULL`. -/
def EisElement__new__ (uninit : Nat → K) (name : String) (type : element_type) :
    Option (EisElement K) :=
  some (EisElement__init__ uninit name type)

/-- The struct `EisCircuit` of `electrox.h`, with the fields `eis.c` assigns: the name,
the representation and the array `elements` of element pointers. -/
structure EisCircuit (K : Type) where
  name : String
  repr : String
  elements : List (Option (EisElement K))

/-- Source `EisCircuit__init__` (eis.c:225): with `N = 3`, `type = R` and
`names = {"E1", "E2", "E3"}`, the loop `for (i = 0; i < N; i++)` stores
`EisElement__new__(names[i], type)` into `elements[i]`; then the name and the
representation are copied.  The representation is not read otherwise.  The line printed
by `printf` is not modelled; `uninit i` is the uninitialised block of element `i`. -/
def EisCircuit__init__ (uninit : Nat → Nat → K) (name repr : String) : EisCircuit K :=
  let N := 3
  let type := element_type.R
  let names := ["E1", "E2", "E3"]
  { elements := (List.range N).map fun i => EisElement__new__ (uninit i) (names.getD i "") type,
    name := name,
    repr := repr }

/-- Source `EisCircuit__new__` (eis.c:210): allocate, initialise, `return c;`.  The result
is the returned pointer, `none` for `NULL`. -/
def EisCircuit__new__ (uninit : Nat → Nat → K) (name repr : String) :
    Option (EisCircuit K) :=
  some (EisCircuit__init__ uninit name repr)

/-- Modelled from the spec: the invariant of an element, "`parameters.length ==
arity(kind)`"; an absent parameter vector has no length. -/
def parameters_invariant (e : EisElement K) : Prop :=
  e.p.map List.length = some (arity e.type)

instance (e : EisElement K) : Decidable (parameters_invariant e) :=
  inferInstanceAs (Decidable (e.p.map List.length = some (arity e.type)))

end Elements

/-! ## Exact real arithmetic: the libm functions at `K = ℝ` -/

/-- A `double complex` over `ℝ` read as a complex number. -/
def toComplex (z : DComplex ℝ) : ℂ := ⟨z.re, z.im⟩

/-- A complex number stored as a `double complex` over `ℝ`. -/
def ofComplex (z : ℂ) : DComplex ℝ := ⟨z.re, z.im⟩

/-- Modelled from the spec: the libm function `csqrt`, which is not part of the
repository; "√ uses the principal complex branch (argument in (−π, π])", that is
`z ^ (1/2) = exp (log z / 2)` with the principal logarithm. -/
noncomputable def csqrt (z : DComplex ℝ) : DComplex ℝ :=
  ofComplex (toComplex z ^ (1 / 2 : ℂ))

/-- Modelled from the spec: the libm function `ctanh`, which is not part of the
repository; the complex hyperbolic tangent `sinh z / cosh z`. -/
noncomputable def ctanh (z : DComplex ℝ) : DComplex ℝ :=
  ofComplex (Complex.tanh (toComplex z))

/-- Modelled from the spec: the libm function `csinh`, which is not part of the
repository; the complex hyperbolic sine, numerator of `coth⁻¹ = tanh = sinh / cosh`. -/
noncomputable def csinh (z : DComplex ℝ) : DComplex ℝ :=
  ofComplex (Complex.sinh (toComplex z))

/-- Modelled from the spec: the libm function `ccosh`, which is not part of the
repository; the complex hyperbolic cosine. -/
noncomputable def ccosh (z : DComplex ℝ) : DComplex ℝ :=
  ofComplex (Complex.cosh (toComplex z))

/-! ## Arithmetic of `DComplex` -/

namespace DComplex

variable {K : Type} [Field K]

@[simp]
theorem ofReal_re (x : K) : (ofReal x).re = x := rfl
@[simp]
theorem ofReal_im (x : K) : (ofReal x).im = 0 := rfl
@[simp]
theorem I_re : (I : DComplex K).re = 0 := rfl
@[simp]
theorem I_im : (I : DComplex K).im = 1 := rfl
@[simp]
theorem add_re (z u : DComplex K) : (z + u).re = z.re + u.re := rfl
@[simp]
theorem add_im (z u : DComplex K) : (z + u).im = z.im + u.im := rfl
@[simp]
theorem sub_re (z u : DComplex K) : (z - u).re = z.re - u.re := rfl
@[simp]
theorem sub_im (z u : DComplex K) : (z - u).im = z.im - u.im := rfl
@[simp]
theorem mul_re (z u : DComplex K) : (z * u).re = z.re * u.re - z.im * u.im := rfl
@[simp]
theorem mul_im (z u : DComplex K) : (z * u).im = z.re * u.im + z.im * u.re := rfl
@[simp]
theorem div_re (z u : DComplex K) :
    (z / u).re = (z.re * u.re + z.im * u.im) / normSq u := rfl
@[simp]
theorem div_im (z u : DComplex K) :
    (z / u).im = (z.im * u.re - z.re * u.im) / normSq u := rfl
@[simp]
theorem neg_re (z : DComplex K) : (-z).re = -z.re := rfl
@[simp]
theorem neg_im (z : DComplex K) : (-z).im = -z.im := rfl
@[simp]
theorem conj_re (z : DComplex K) : (conj z).re = z.re := rfl
@[simp]
theorem conj_im (z : DComplex K) : (conj z).im = -z.im := rfl

end DComplex

/-! ## Transport between `DComplex ℝ` and `ℂ` -/

section Transport

open DComplex

@[simp]
theorem toComplex_ofComplex (z : ℂ) : toComplex (ofComplex z) = z := rfl

@[simp]
theorem ofComplex_toComplex (z : DComplex ℝ) : ofComplex (toComplex z) = z := rfl

theorem toComplex_injective : Function.Injective toComplex := by
  intro z u h
  have := congrArg ofComplex h
  simpa using this

@[simp]
theorem toComplex_ofReal (x : ℝ) : toComplex (ofReal x) = (x : ℂ) := rfl

@[simp]
theorem toComplex_I : toComplex (I : DComplex ℝ) = Complex.I := rfl

@[simp]
theorem toComplex_mul (z u : DComplex ℝ) : toComplex (z * u) = toComplex z * toComplex u := by
  apply Complex.ext <;> simp [toComplex]

@[simp]
theorem toComplex_sub (z u : DComplex ℝ) : toComplex (z - u) = toComplex z - toComplex u := by
  apply Complex.ext <;> simp [toComplex]

@[simp]
theorem toComplex_div (z u : DComplex ℝ) : toComplex (z / u) = toComplex z / toComplex u := by
  apply Complex.ext <;>
    simp [toComplex, Complex.div_re, Complex.div_im, normSq, Complex.normSq_apply] <;> ring

@[simp]
theorem toComplex_csqrt (z : DComplex ℝ) : toComplex (csqrt z) = toComplex z ^ (1 / 2 : ℂ) := rfl

@[simp]
theorem toComplex_ctanh (z : DComplex ℝ) : toComplex (ctanh z) = Complex.tanh (toComplex z) :=
  rfl

@[simp]
theorem toComplex_csinh (z : DComplex ℝ) : toComplex (csinh z) = Complex.sinh (toComplex z) :=
  rfl

@[simp]
theorem toComplex_ccosh (z : DComplex ℝ) : toComplex (ccosh z) = Complex.cosh (toComplex z) :=
  rfl

end Transport

/-! ## The scalar formulas -/

open DComplex

/-- C1: for every real `r` and `w`, `resistance r w` is exactly `r + 0j`: real part `r`,
imaginary part `0`, and the value does not depend on `w`. -/
theorem resistance_exact (r w : ℝ) :
    resistance r w = ⟨r, 0⟩ ∧ creal (resistance r w) = r ∧ cimag (resistance r w) = 0 ∧
      ∀ w' : ℝ, resistance r w' = resistance r w :=
  ⟨rfl, rfl, rfl, fun _ => rfl⟩

/-- C2: for `c ≠ 0` and `w > 0`, `capacitance c w = 1/(j*c*w)` has real part `0` and
imaginary part `-1/(c*w)`; equivalently it equals minus its own conjugate. -/
theorem capacitance_purely_imaginary (c w : ℝ) (hc : c ≠ 0) (hw : 0 < w) :
    creal (capacitance c w) = 0 ∧ cimag (capacitance c w) = -1 / (c * w) ∧
      capacitance c w = -conj (capacitance c w) := by
  have hcw : c * w ≠ 0 := mul_ne_zero hc hw.ne'
  have hre : (capacitance c w).re = 0 := by
    simp [capacitance, normSq]
  have him : (capacitance c w).im = -1 / (c * w) := by
    simp only [capacitance, normSq, div_im, mul_re, mul_im, ofReal_re, ofReal_im, I_re, I_im]
    field_simp
  refine ⟨hre, him, ?_⟩
  ext
  · simp [hre]
  · simp

/-- Witness of C2 at `c = 2`, `w = 3`. -/
theorem capacitance_purely_imaginary_witness :
    creal (capacitance (2 : ℝ) 3) = 0 ∧ cimag (capacitance (2 : ℝ) 3) = -1 / (2 * 3) ∧
      capacitance (2 : ℝ) 3 = -conj (capacitance (2 : ℝ) 3) :=
  capacitance_purely_imaginary 2 3 (by norm_num) (by norm_num)

/-- C3: for every real `l` and `w`, `inductance l w` has real part `0` and imaginary part
`l*w`; in particular `inductance l 0` is zero. -/
theorem inductance_purely_imaginary (l w : ℝ) :
    creal (inductance l w) = 0 ∧ cimag (inductance l w) = l * w ∧
      inductance l 0 = ⟨0, 0⟩ := by
  refine ⟨?_, ?_, ?_⟩
  · simp [creal, inductance]
  · simp [cimag, inductance]
  · ext <;> simp [inductance]

/-- C4: for every real `sigma` and every `w > 0`, `warburg sigma w` is
`(sigma/sqrt w) * (1 - j)`: real part `sigma/sqrt w`, imaginary part `-(sigma/sqrt w)`,
so the real part is minus the imaginary part. -/
theorem warburg_re_im (sigma w : ℝ) (hw : 0 < w) :
    0 < Real.sqrt w ∧
      warburg Real.sqrt sigma w = ⟨sigma / Real.sqrt w, -(sigma / Real.sqrt w)⟩ ∧
      creal (warburg Real.sqrt sigma w) = sigma / Real.sqrt w ∧
      cimag (warburg Real.sqrt sigma w) = -(sigma / Real.sqrt w) ∧
      creal (warburg Real.sqrt sigma w) = -cimag (warburg Real.sqrt sigma w) := by
  have hre : (warburg Real.sqrt sigma w).re = sigma / Real.sqrt w := by
    simp [warburg]
  have him : (warburg Real.sqrt sigma w).im = -(sigma / Real.sqrt w) := by
    simp [warburg]
  refine ⟨Real.sqrt_pos.mpr hw, ?_, hre, him, ?_⟩
  · ext
    · exact hre
    · exact him
  · simp [creal, cimag, hre, him]

/-- Witness of C4 at `sigma = 3`, `w = 4`. -/
theorem warburg_re_im_witness :
    0 < Real.sqrt 4 ∧
      warburg Real.sqrt 3 4 = ⟨3 / Real.sqrt 4, -(3 / Real.sqrt 4)⟩ ∧
      creal (warburg Real.sqrt 3 4) = 3 / Real.sqrt 4 ∧
      cimag (warburg Real.sqrt 3 4) = -(3 / Real.sqrt 4) ∧
      creal (warburg Real.sqrt 3 4) = -cimag (warburg Real.sqrt 3 4) :=
  warburg_re_im 3 4 (by norm_num)

/-! ## The finite Warburg impedances -/

section Diagonal

/-- The principal square root of `j*x` for `x > 0` lies on the diagonal:
`√(j x) = √(x/2) * (1 + j)`. -/
theorem cpow_half_I_mul (x : ℝ) (hx : 0 < x) :
    (Complex.I * (x : ℂ)) ^ (1 / 2 : ℂ) = (Real.sqrt (x / 2) : ℂ) * (1 + Complex.I) := by
  have hx0 : (x : ℂ) ≠ 0 := by exact_mod_cast hx.ne'
  have hne : Complex.I * (x : ℂ) ≠ 0 := mul_ne_zero Complex.I_ne_zero hx0
  rw [Complex.cpow_def_of_ne_zero hne, mul_comm Complex.I (x : ℂ),
    Complex.log_ofReal_mul hx Complex.I_ne_zero, Complex.log_I]
  have h1 : ((Real.log x : ℂ) + (Real.pi : ℂ) / 2 * Complex.I) * (1 / 2)
      = ((Real.log x / 2 : ℝ) : ℂ) + ((Real.pi / 4 : ℝ) : ℂ) * Complex.I := by
    push_cast; ring
  rw [h1, Complex.exp_add, Complex.exp_mul_I, ← Complex.ofReal_exp, ← Complex.ofReal_cos,
    ← Complex.ofReal_sin, Real.cos_pi_div_four, Real.sin_pi_div_four, Real.exp_half,
    Real.exp_log hx]
  have h2 : Real.sqrt (x / 2) = Real.sqrt x * (Real.sqrt 2 / 2) := by
    rw [Real.sqrt_div hx.le]
    have h22 : Real.sqrt 2 * Real.sqrt 2 = 2 := Real.mul_self_sqrt (by norm_num)
    have h0 : Real.sqrt 2 ≠ 0 := by positivity
    field_simp
    rw [mul_assoc, h22]
  rw [h2]
  push_cast
  ring

theorem diag_ne_zero (a : ℝ) (ha : 0 < a) : (a : ℂ) * (1 + Complex.I) ≠ 0 := by
  intro h
  have := congrArg Complex.re h
  simp at this
  exact ha.ne' this

theorem diag_mul_self (a : ℝ) :
    (a : ℂ) * (1 + Complex.I) * ((a : ℂ) * (1 + Complex.I)) = Complex.I * ((2 * (a * a) : ℝ) : ℂ) := by
  push_cast
  linear_combination ((a : ℂ) * a) * Complex.I_mul_I

theorem abs_exp_diag (a : ℝ) :
    Complex.abs (Complex.exp ((a : ℂ) * (1 + Complex.I))) = Real.exp a ∧
    Complex.abs (Complex.exp (-((a : ℂ) * (1 + Complex.I)))) = Real.exp (-a) := by
  constructor <;> rw [Complex.abs_exp] <;> simp

theorem sinh_diag_ne_zero (a : ℝ) (ha : 0 < a) :
    Complex.sinh ((a : ℂ) * (1 + Complex.I)) ≠ 0 := by
  intro h
  rw [Complex.sinh, div_eq_zero_iff] at h
  rcases h with h | h
  · have h1 := congrArg Complex.abs (sub_eq_zero.mp h)
    rw [(abs_exp_diag a).1, (abs_exp_diag a).2, Real.exp_eq_exp] at h1
    linarith
  · norm_num at h

theorem cosh_diag_ne_zero (a : ℝ) (ha : 0 < a) :
    Complex.cosh ((a : ℂ) * (1 + Complex.I)) ≠ 0 := by
  intro h
  rw [Complex.cosh, div_eq_zero_iff] at h
  rcases h with h | h
  · have h1 := congrArg Complex.abs (eq_neg_of_add_eq_zero_left h)
    rw [map_neg_eq_map, (abs_exp_diag a).1, (abs_exp_diag a).2, Real.exp_eq_exp] at h1
    linarith
  · norm_num at h

theorem tanh_diag_ne_zero (a : ℝ) (ha : 0 < a) :
    Complex.tanh ((a : ℂ) * (1 + Complex.I)) ≠ 0 := by
  rw [Complex.tanh_eq_sinh_div_cosh]
  exact div_ne_zero (sinh_diag_ne_zero a ha) (cosh_diag_ne_zero a ha)

theorem tanh_mul_self_ne_one (z : ℂ) : Complex.tanh z * Complex.tanh z ≠ 1 := by
  intro h
  rw [Complex.tanh_eq_sinh_div_cosh] at h
  by_cases hc : Complex.cosh z = 0
  · simp [hc] at h
  · rw [div_mul_div_comm, div_eq_one_iff_eq (mul_ne_zero hc hc)] at h
    have h1 := Complex.cosh_sq_sub_sinh_sq z
    rw [pow_two, pow_two, h, sub_self] at h1
    exact zero_ne_one h1

/-- On the diagonal `s = a (1 + j)`, `a > 0`, the hyperbolic tangent is within
`2 / (e^(2a) - 1)` of `1`. -/
theorem abs_tanh_diag_sub_one_le (a : ℝ) (ha : 0 < a) :
    Complex.abs (Complex.tanh ((a : ℂ) * (1 + Complex.I)) - 1) ≤
      2 / (Real.exp (2 * a) - 1) := by
  set s : ℂ := (a : ℂ) * (1 + Complex.I) with hs
  have hc := cosh_diag_ne_zero a ha
  have h1 : Complex.tanh s - 1 = -Complex.exp (-s) / Complex.cosh s := by
    rw [Complex.tanh_eq_sinh_div_cosh, ← Complex.cosh_sub_sinh]
    field_simp
  have hpos : 0 < Real.exp (2 * a) - 1 := by
    have h2a : 2 * a ≠ 0 := by positivity
    have := Real.add_one_lt_exp h2a
    linarith
  have hE : Real.exp (2 * a) = Real.exp a * Real.exp a := by
    rw [← Real.exp_add]; ring_nf
  have hEn : Real.exp (-a) * Real.exp a = 1 := by
    rw [← Real.exp_add]; simp
  have hea : 0 < Real.exp a := Real.exp_pos a
  have hlow : (Real.exp a - Real.exp (-a)) / 2 ≤ Complex.abs (Complex.cosh s) := by
    rw [Complex.cosh, map_div₀]
    have h2 : Complex.abs (2 : ℂ) = 2 := by simp
    rw [h2]
    apply div_le_div_of_nonneg_right _ (by norm_num)
    have := Complex.abs.le_add (Complex.exp s) (Complex.exp (-s))
    rw [(abs_exp_diag a).1, (abs_exp_diag a).2] at this
    exact this
  have hden : 0 < (Real.exp a - Real.exp (-a)) / 2 := by
    have : Real.exp (-a) < Real.exp a := Real.exp_lt_exp.mpr (by linarith)
    linarith
  rw [h1, map_div₀, map_neg_eq_map, (abs_exp_diag a).2]
  calc Real.exp (-a) / Complex.abs (Complex.cosh s)
      ≤ Real.exp (-a) / ((Real.exp a - Real.exp (-a)) / 2) :=
        div_le_div_of_nonneg_left (Real.exp_pos _).le hden hlow
    _ = 2 / (Real.exp (2 * a) - 1) := by
        rw [hE]
        have h3 : Real.exp a - Real.exp (-a) ≠ 0 := by linarith
        have h4 : Real.exp a * Real.exp a - 1 ≠ 0 := by rw [← hE]; exact hpos.ne'
        field_simp
        nlinarith [hEn]

end Diagonal

section FiniteWarburg

open DComplex

/-- The argument `I * tau * w` of `csqrt` in both finite Warburg formulas. -/
theorem toComplex_arg (tau w : ℝ) :
    toComplex (I * ofReal tau * ofReal w) = Complex.I * ((tau * w : ℝ) : ℂ) := by
  simp only [toComplex_mul, toComplex_I, toComplex_ofReal]
  push_cast
  ring

/-- The value `s = csqrt (I * tau * w)` for `tau * w > 0`. -/
theorem toComplex_csqrt_arg (tau w : ℝ) (h : 0 < tau * w) :
    toComplex (csqrt (I * ofReal tau * ofReal w)) =
      (Real.sqrt (tau * w / 2) : ℂ) * (1 + Complex.I) := by
  rw [toComplex_csqrt, toComplex_arg, cpow_half_I_mul _ h]

theorem sqrt_half_pos (tau w : ℝ) (h : 0 < tau * w) : 0 < Real.sqrt (tau * w / 2) :=
  Real.sqrt_pos.mpr (by linarith)

theorem toComplex_finite_length_warburg (r tau w : ℝ) (h : 0 < tau * w) :
    toComplex (finite_length_warburg csqrt ctanh r tau w) =
      (r : ℂ) * Complex.tanh ((Real.sqrt (tau * w / 2) : ℂ) * (1 + Complex.I)) /
        ((Real.sqrt (tau * w / 2) : ℂ) * (1 + Complex.I)) := by
  simp only [finite_length_warburg, toComplex_div, toComplex_mul, toComplex_ctanh,
    toComplex_csqrt_arg tau w h, toComplex_ofReal]

theorem toComplex_finite_space_warburg (r tau w : ℝ) (h : 0 < tau * w) :
    toComplex (finite_space_warburg csqrt ctanh r tau w) =
      (r : ℂ) / (Complex.tanh ((Real.sqrt (tau * w / 2) : ℂ) * (1 + Complex.I)) *
        ((Real.sqrt (tau * w / 2) : ℂ) * (1 + Complex.I))) := by
  simp only [finite_space_warburg, toComplex_div, toComplex_mul, toComplex_ctanh,
    toComplex_csqrt_arg tau w h, toComplex_ofReal]

theorem quot_mul_quot (r s t x : ℂ) (hs : s ≠ 0) (ht : t ≠ 0) (hx : s * s = x) :
    r * t / s * (r / (t * s)) = r * r / x := by
  subst hx
  field_simp
  ring

/-- Product of the two finite Warburg impedances: the hyperbolic tangents cancel and
leave `r^2 / s^2 = r^2 / (j*tau*w)`. -/
theorem toComplex_warburg_product (r tau w : ℝ) (h : 0 < tau * w) :
    toComplex (finite_length_warburg csqrt ctanh r tau w *
        finite_space_warburg csqrt ctanh r tau w) =
      ((r ^ 2 : ℝ) : ℂ) / (Complex.I * ((tau * w : ℝ) : ℂ)) := by
  have ha := sqrt_half_pos tau w h
  have hsq := diag_mul_self (Real.sqrt (tau * w / 2))
  rw [Real.mul_self_sqrt (by linarith)] at hsq
  have h2 : (2 * (tau * w / 2) : ℝ) = tau * w := by ring
  rw [h2] at hsq
  rw [toComplex_mul, toComplex_finite_length_warburg r tau w h,
    toComplex_finite_space_warburg r tau w h]
  have key := quot_mul_quot (r : ℂ) _ _ _ (diag_ne_zero _ ha) (tanh_diag_ne_zero _ ha) hsq
  rw [key]
  push_cast
  ring

end FiniteWarburg

section FiniteWarburgClaims

open DComplex

/-- C5 (as stated, refuted): at `r = 10`, `tau = 1/2`, `w = 100` the product
`finite_length_warburg * finite_space_warburg` is `-2j`, not `r^2 = 100`. -/
theorem warburg_product_ne_sq :
    finite_length_warburg csqrt ctanh 10 (1 / 2) 100 *
        finite_space_warburg csqrt ctanh 10 (1 / 2) 100 = ⟨0, -2⟩ ∧
      finite_length_warburg csqrt ctanh 10 (1 / 2) 100 *
        finite_space_warburg csqrt ctanh 10 (1 / 2) 100 ≠ ofReal (10 ^ 2) := by
  have hval : finite_length_warburg csqrt ctanh 10 (1 / 2) 100 *
      finite_space_warburg csqrt ctanh 10 (1 / 2) 100 = ⟨0, -2⟩ := by
    apply toComplex_injective
    rw [toComplex_warburg_product _ _ _ (by norm_num)]
    apply Complex.ext <;> simp [toComplex, Complex.div_re, Complex.div_im] <;> norm_num
  refine ⟨hval, ?_⟩
  rw [hval]
  intro h
  have h1 := congrArg DComplex.im h
  norm_num [ofReal] at h1

/-- C5 (amended): for every `r`, `tau > 0` and `w > 0` the product
`finite_length_warburg r tau w * finite_space_warburg r tau w` is `r^2 / (j*tau*w)`,
the purely imaginary number `-j * r^2 / (tau*w)`: the hyperbolic tangents cancel and
leave `r^2 / s^2` with `s^2 = j*tau*w`. -/
theorem warburg_product (r tau w : ℝ) (htau : 0 < tau) (hw : 0 < w) :
    finite_length_warburg csqrt ctanh r tau w * finite_space_warburg csqrt ctanh r tau w =
        ofReal (r ^ 2) / (I * ofReal tau * ofReal w) ∧
      finite_length_warburg csqrt ctanh r tau w * finite_space_warburg csqrt ctanh r tau w =
        ⟨0, -(r ^ 2 / (tau * w))⟩ := by
  have h : 0 < tau * w := mul_pos htau hw
  have h1 : finite_length_warburg csqrt ctanh r tau w *
      finite_space_warburg csqrt ctanh r tau w =
        ofReal (r ^ 2) / (I * ofReal tau * ofReal w) := by
    apply toComplex_injective
    rw [toComplex_warburg_product r tau w h, toComplex_div, toComplex_arg, toComplex_ofReal]
  refine ⟨h1, ?_⟩
  rw [h1]
  ext
  · simp [normSq]
  · simp only [div_im, mul_re, mul_im, ofReal_re, ofReal_im, I_re, I_im, normSq]
    field_simp
    ring

/-- Witness of C5 (amended) at `r = 10`, `tau = 1/2`, `w = 100`. -/
theorem warburg_product_witness :
    finite_length_warburg csqrt ctanh 10 (1 / 2) 100 *
        finite_space_warburg csqrt ctanh 10 (1 / 2) 100 =
        ofReal (10 ^ 2) / (I * ofReal (1 / 2) * ofReal 100) ∧
      finite_length_warburg csqrt ctanh 10 (1 / 2) 100 *
        finite_space_warburg csqrt ctanh 10 (1 / 2) 100 =
        ⟨0, -(10 ^ 2 / (1 / 2 * 100))⟩ :=
  warburg_product 10 (1 / 2) 100 (by norm_num) (by norm_num)

theorem csqrt_arg_ne_zero (tau w : ℝ) (h : 0 < tau * w) :
    csqrt (I * ofReal tau * ofReal w) ≠ ofReal 0 := by
  intro h0
  have h1 := congrArg toComplex h0
  rw [toComplex_csqrt_arg tau w h, toComplex_ofReal] at h1
  exact diag_ne_zero _ (sqrt_half_pos tau w h) (by simpa using h1)

theorem ctanh_csqrt_arg_ne_zero (tau w : ℝ) (h : 0 < tau * w) :
    ctanh (csqrt (I * ofReal tau * ofReal w)) ≠ ofReal 0 := by
  intro h0
  have h1 := congrArg toComplex h0
  rw [toComplex_ctanh, toComplex_csqrt_arg tau w h, toComplex_ofReal] at h1
  exact tanh_diag_ne_zero _ (sqrt_half_pos tau w h) (by simpa using h1)

theorem csinh_csqrt_arg_ne_zero (tau w : ℝ) (h : 0 < tau * w) :
    csinh (csqrt (I * ofReal tau * ofReal w)) ≠ ofReal 0 := by
  intro h0
  have h1 := congrArg toComplex h0
  rw [toComplex_csinh, toComplex_csqrt_arg tau w h, toComplex_ofReal] at h1
  exact sinh_diag_ne_zero _ (sqrt_half_pos tau w h) (by simpa using h1)

/-- With `coth = 1/tanh` dividing, as in `r / (coth s * s)`, the quotient is the
finite-length impedance `r * tanh s / s`. -/
theorem coth_in_denominator (r tau w : ℝ) :
    ofReal r / (ofReal 1 / ctanh (csqrt (I * ofReal tau * ofReal w)) *
        csqrt (I * ofReal tau * ofReal w)) =
      finite_length_warburg csqrt ctanh r tau w := by
  apply toComplex_injective
  simp only [finite_length_warburg, toComplex_div, toComplex_mul, toComplex_ofReal]
  rw [Complex.ofReal_one, one_div, inv_mul_eq_div, div_div_eq_mul_div]

/-- With `coth = 1/tanh` multiplying, `r * coth s / s` is the source expression
`r / (tanh s * s)`. -/
theorem coth_in_numerator (r tau w : ℝ) :
    finite_space_warburg csqrt ctanh r tau w =
      ofReal r * (ofReal 1 / ctanh (csqrt (I * ofReal tau * ofReal w))) /
        csqrt (I * ofReal tau * ofReal w) := by
  apply toComplex_injective
  simp only [finite_space_warburg, toComplex_div, toComplex_mul, toComplex_ofReal]
  rw [Complex.ofReal_one, mul_one_div, div_div]

/-- C6 (as stated, refuted): at `r = 10`, `tau = 1/2`, `w = 100`,
`finite_space_warburg` differs from `r / (coth s * s)` with `coth = 1/tanh`. -/
theorem finite_space_warburg_ne_coth_quotient :
    finite_space_warburg csqrt ctanh 10 (1 / 2) 100 ≠
      ofReal 10 / (ofReal 1 / ctanh (csqrt (I * ofReal (1 / 2) * ofReal 100)) *
        csqrt (I * ofReal (1 / 2) * ofReal 100)) := by
  intro h
  have hp : (0 : ℝ) < 1 / 2 * 100 := by norm_num
  have h1 := congrArg toComplex h
  rw [toComplex_finite_space_warburg _ _ _ hp] at h1
  simp only [toComplex_div, toComplex_mul, toComplex_ofReal, toComplex_ctanh,
    toComplex_csqrt_arg _ _ hp] at h1
  have ha := sqrt_half_pos _ _ hp
  have hs := diag_ne_zero _ ha
  have ht := tanh_diag_ne_zero _ ha
  have hsq := tanh_mul_self_ne_one ((Real.sqrt (1 / 2 * 100 / 2) : ℂ) * (1 + Complex.I))
  revert h1 hs ht hsq
  generalize Complex.tanh ((Real.sqrt (1 / 2 * 100 / 2) : ℂ) * (1 + Complex.I)) = t
  generalize (Real.sqrt (1 / 2 * 100 / 2) : ℂ) * (1 + Complex.I) = s
  intro h1 hs ht hsq
  apply hsq
  have h10 : (10 : ℂ) ≠ 0 := by norm_num
  push_cast at h1
  field_simp at h1
  have h2 : (10 : ℂ) * s * (t * t - 1) = 0 := by linear_combination -h1
  rcases mul_eq_zero.mp h2 with h3 | h3
  · exact absurd h3 (mul_ne_zero h10 hs)
  · exact sub_eq_zero.mp h3

/-- C6 (amended): for every `r`, `tau > 0` and `w > 0`, with `s` the principal square
root of `j*tau*w` and `coth = 1/tanh`, `finite_space_warburg r tau w` is
`r / (tanh s * s) = r * coth s / s`, where `s` and `tanh s` are non-zero; the quotient
`r / (coth s * s)` is `finite_length_warburg r tau w` instead. -/
theorem finite_space_warburg_coth (r tau w : ℝ) (htau : 0 < tau) (hw : 0 < w) :
    csqrt (I * ofReal tau * ofReal w) ≠ ofReal 0 ∧
      ctanh (csqrt (I * ofReal tau * ofReal w)) ≠ ofReal 0 ∧
      finite_space_warburg csqrt ctanh r tau w =
        ofReal r / (ctanh (csqrt (I * ofReal tau * ofReal w)) *
          csqrt (I * ofReal tau * ofReal w)) ∧
      finite_space_warburg csqrt ctanh r tau w =
        ofReal r * (ofReal 1 / ctanh (csqrt (I * ofReal tau * ofReal w))) /
          csqrt (I * ofReal tau * ofReal w) ∧
      ofReal r / (ofReal 1 / ctanh (csqrt (I * ofReal tau * ofReal w)) *
          csqrt (I * ofReal tau * ofReal w)) =
        finite_length_warburg csqrt ctanh r tau w :=
  ⟨csqrt_arg_ne_zero tau w (mul_pos htau hw), ctanh_csqrt_arg_ne_zero tau w (mul_pos htau hw),
    rfl, coth_in_numerator r tau w, coth_in_denominator r tau w⟩

/-- Witness of C6 (amended) at `r = 10`, `tau = 1/2`, `w = 100`. -/
theorem finite_space_warburg_coth_witness :
    csqrt (I * ofReal (1 / 2) * ofReal 100) ≠ ofReal 0 ∧
      ctanh (csqrt (I * ofReal (1 / 2) * ofReal 100)) ≠ ofReal 0 ∧
      finite_space_warburg csqrt ctanh 10 (1 / 2) 100 =
        ofReal 10 / (ctanh (csqrt (I * ofReal (1 / 2) * ofReal 100)) *
          csqrt (I * ofReal (1 / 2) * ofReal 100)) ∧
      finite_space_warburg csqrt ctanh 10 (1 / 2) 100 =
        ofReal 10 * (ofReal 1 / ctanh (csqrt (I * ofReal (1 / 2) * ofReal 100))) /
          csqrt (I * ofReal (1 / 2) * ofReal 100) ∧
      ofReal 10 / (ofReal 1 / ctanh (csqrt (I * ofReal (1 / 2) * ofReal 100)) *
          csqrt (I * ofReal (1 / 2) * ofReal 100)) =
        finite_length_warburg csqrt ctanh 10 (1 / 2) 100 :=
  finite_space_warburg_coth 10 (1 / 2) 100 (by norm_num) (by norm_num)

/-- C7: for every `r`, `tau > 0` and `w > 0`, with `s` the principal square root of
`j*tau*w`, `finite_space_warburg r tau w` equals the documented `(r / s) * coth s`, where
`coth s = cosh s / sinh s = 1 / tanh s` and `sinh s`, `tanh s` are non-zero. -/
theorem finite_space_warburg_documented (r tau w : ℝ) (htau : 0 < tau) (hw : 0 < w) :
    finite_space_warburg csqrt ctanh r tau w =
        ofReal r / csqrt (I * ofReal tau * ofReal w) *
          (ccosh (csqrt (I * ofReal tau * ofReal w)) /
            csinh (csqrt (I * ofReal tau * ofReal w))) ∧
      ccosh (csqrt (I * ofReal tau * ofReal w)) / csinh (csqrt (I * ofReal tau * ofReal w)) =
        ofReal 1 / ctanh (csqrt (I * ofReal tau * ofReal w)) ∧
      csinh (csqrt (I * ofReal tau * ofReal w)) ≠ ofReal 0 ∧
      ctanh (csqrt (I * ofReal tau * ofReal w)) ≠ ofReal 0 := by
  have h : 0 < tau * w := mul_pos htau hw
  have ha := sqrt_half_pos tau w h
  have hcoth : ccosh (csqrt (I * ofReal tau * ofReal w)) /
      csinh (csqrt (I * ofReal tau * ofReal w)) =
        ofReal 1 / ctanh (csqrt (I * ofReal tau * ofReal w)) := by
    apply toComplex_injective
    simp only [toComplex_div, toComplex_ccosh, toComplex_csinh, toComplex_ctanh,
      toComplex_ofReal]
    rw [Complex.tanh_eq_sinh_div_cosh, Complex.ofReal_one, one_div_div]
  refine ⟨?_, hcoth, csinh_csqrt_arg_ne_zero tau w h, ctanh_csqrt_arg_ne_zero tau w h⟩
  rw [hcoth]
  apply toComplex_injective
  simp only [finite_space_warburg, toComplex_div, toComplex_mul, toComplex_ofReal]
  rw [Complex.ofReal_one, div_mul_div_comm, mul_one, mul_comm (toComplex (csqrt _))]

/-- Witness of C7 at `r = 10`, `tau = 1/2`, `w = 100`. -/
theorem finite_space_warburg_documented_witness :
    finite_space_warburg csqrt ctanh 10 (1 / 2) 100 =
        ofReal 10 / csqrt (I * ofReal (1 / 2) * ofReal 100) *
          (ccosh (csqrt (I * ofReal (1 / 2) * ofReal 100)) /
            csinh (csqrt (I * ofReal (1 / 2) * ofReal 100))) ∧
      ccosh (csqrt (I * ofReal (1 / 2) * ofReal 100)) /
          csinh (csqrt (I * ofReal (1 / 2) * ofReal 100)) =
        ofReal 1 / ctanh (csqrt (I * ofReal (1 / 2) * ofReal 100)) ∧
      csinh (csqrt (I * ofReal (1 / 2) * ofReal 100)) ≠ ofReal 0 ∧
      ctanh (csqrt (I * ofReal (1 / 2) * ofReal 100)) ≠ ofReal 0 :=
  finite_space_warburg_documented 10 (1 / 2) 100 (by norm_num) (by norm_num)

end FiniteWarburgClaims

section Asymptotic

open DComplex

theorem toComplex_warburg (sigma w : ℝ) :
    toComplex (warburg Real.sqrt sigma w) =
      ((sigma / Real.sqrt w : ℝ) : ℂ) * (1 - Complex.I) := by
  simp only [warburg, toComplex_mul, toComplex_sub, toComplex_ofReal, toComplex_I]
  push_cast
  ring

/-- The factor `k(tau) = 1/(√2 * tau)` turns `warburg (r * √tau) w` into
`warburg (r / √(2 tau)) w`. -/
theorem scaled_warburg (r tau w : ℝ) (htau : 0 < tau) :
    ofReal (1 / (Real.sqrt 2 * tau)) * warburg Real.sqrt (r * Real.sqrt tau) w =
      warburg Real.sqrt (r / Real.sqrt (2 * tau)) w := by
  have h1 : 1 / (Real.sqrt 2 * tau) * (r * Real.sqrt tau) = r / Real.sqrt (2 * tau) := by
    rw [Real.sqrt_mul (by norm_num : (0 : ℝ) ≤ 2)]
    have h2 : Real.sqrt 2 ≠ 0 := by positivity
    have h3 : Real.sqrt tau ≠ 0 := (Real.sqrt_pos.mpr htau).ne'
    have h4 : Real.sqrt tau * Real.sqrt tau = tau := Real.mul_self_sqrt htau.le
    field_simp
    linear_combination (r * Real.sqrt 2) * h4
  apply toComplex_injective
  rw [toComplex_mul, toComplex_warburg, toComplex_warburg, toComplex_ofReal, ← h1]
  push_cast
  ring

theorem quotient_algebra (r a t : ℂ) (hr : r ≠ 0) (ha : a ≠ 0) :
    r * t / (a * (1 + Complex.I)) / (r / (2 * a) * (1 - Complex.I)) = t := by
  have h1 : (1 + Complex.I) * (1 - Complex.I) = 2 := by
    linear_combination -Complex.I_mul_I
  have h2 : (1 + Complex.I) ≠ 0 := by
    intro h0
    rw [h0, zero_mul] at h1
    norm_num at h1
  have h3 : (1 - Complex.I) ≠ 0 := by
    intro h0
    rw [h0, mul_zero] at h1
    norm_num at h1
  field_simp
  linear_combination (-(r * t * a)) * h1

theorem tendsto_sqrt_atTop : Filter.Tendsto Real.sqrt Filter.atTop Filter.atTop := by
  rw [Filter.tendsto_atTop]
  intro b
  filter_upwards [Filter.eventually_ge_atTop (b ^ 2)] with x hx
  exact le_trans (le_abs_self b) (Real.abs_le_sqrt hx)

/-- The quotient of the finite-length impedance by its semi-infinite asymptote is the
hyperbolic tangent on the diagonal. -/
theorem toComplex_quotient (r tau w : ℝ) (hr : r ≠ 0) (htau : 0 < tau) (hw : 0 < w) :
    toComplex (finite_length_warburg csqrt ctanh r tau w /
        warburg Real.sqrt (r / Real.sqrt (2 * tau)) w) =
      Complex.tanh ((Real.sqrt (tau * w / 2) : ℂ) * (1 + Complex.I)) := by
  have h : 0 < tau * w := mul_pos htau hw
  have ha := sqrt_half_pos tau w h
  have hs := diag_ne_zero _ ha
  have h2a : Real.sqrt (2 * tau) * Real.sqrt w = 2 * Real.sqrt (tau * w / 2) := by
    rw [← Real.sqrt_mul (by linarith), Real.sqrt_eq_iff_mul_self_eq (by nlinarith) (by linarith)]
    have := Real.mul_self_sqrt (show (0 : ℝ) ≤ tau * w / 2 by linarith)
    nlinarith
  have hac : (Real.sqrt (tau * w / 2) : ℂ) ≠ 0 := by exact_mod_cast ha.ne'
  have hrc : (r : ℂ) ≠ 0 := by exact_mod_cast hr
  have hq : r / Real.sqrt (2 * tau) / Real.sqrt w = r / (2 * Real.sqrt (tau * w / 2)) := by
    rw [div_div, h2a]
  rw [toComplex_div, toComplex_finite_length_warburg r tau w h, toComplex_warburg, hq]
  push_cast
  exact quotient_algebra _ _ _ hrc hac

theorem quotient_bound (r tau w : ℝ) (hr : r ≠ 0) (htau : 0 < tau) (hw : 0 < w) :
    Complex.abs (toComplex (finite_length_warburg csqrt ctanh r tau w /
        warburg Real.sqrt (r / Real.sqrt (2 * tau)) w) - 1) ≤
      2 / (Real.exp (2 * Real.sqrt (tau * w / 2)) - 1) := by
  rw [toComplex_quotient r tau w hr htau hw]
  exact abs_tanh_diag_sub_one_le _ (sqrt_half_pos tau w (mul_pos htau hw))

theorem bound_tendsto_zero (w : ℝ) (hw : 0 < w) :
    Filter.Tendsto (fun tau : ℝ => 2 / (Real.exp (2 * Real.sqrt (tau * w / 2)) - 1))
      Filter.atTop (nhds 0) := by
  apply Filter.Tendsto.const_div_atTop
  apply Filter.tendsto_atTop_add_const_right
  apply Real.tendsto_exp_atTop.comp
  apply Filter.Tendsto.const_mul_atTop (by norm_num : (0 : ℝ) < 2)
  apply tendsto_sqrt_atTop.comp
  have h2 : (0 : ℝ) < w / 2 := by linarith
  have := Filter.tendsto_id.atTop_mul_const h2
  refine this.congr (fun tau => ?_)
  simp only [id]
  ring

theorem quotient_tendsto_one (r w : ℝ) (hr : r ≠ 0) (hw : 0 < w) :
    Filter.Tendsto (fun tau : ℝ => toComplex (finite_length_warburg csqrt ctanh r tau w /
        warburg Real.sqrt (r / Real.sqrt (2 * tau)) w)) Filter.atTop (nhds 1) := by
  rw [tendsto_iff_norm_sub_tendsto_zero]
  refine squeeze_zero' (Filter.Eventually.of_forall fun _ => norm_nonneg _) ?_
    (bound_tendsto_zero w hw)
  filter_upwards [Filter.eventually_gt_atTop 0] with tau htau
  exact quotient_bound r tau w hr htau hw

theorem bound_at_million : 2 / (Real.exp (2 * Real.sqrt (1000000 * 1 / 2)) - 1) < 1 / 1000000 := by
  have h1 : (707 : ℝ) ≤ Real.sqrt (1000000 * 1 / 2) := by
    rw [Real.le_sqrt (by norm_num) (by norm_num)]
    norm_num
  have h2 : Real.exp 22 ≤ Real.exp (2 * Real.sqrt (1000000 * 1 / 2)) :=
    Real.exp_le_exp.mpr (by linarith)
  have h3 : (2 : ℝ) ^ 22 < Real.exp 22 := by
    have h4 : Real.exp 22 = Real.exp 1 ^ 22 := by
      rw [← Real.exp_nat_mul]; norm_num
    rw [h4]
    have h5 : (2 : ℝ) < Real.exp 1 := by
      have := Real.exp_one_gt_d9
      linarith
    exact pow_lt_pow_left₀ h5 (by norm_num) (by norm_num)
  have h6 : (4194304 : ℝ) < Real.exp (2 * Real.sqrt (1000000 * 1 / 2)) := by
    have : (2 : ℝ) ^ 22 = 4194304 := by norm_num
    linarith
  rw [div_lt_div_iff₀ (by linarith) (by norm_num)]
  linarith

/-- C8: for `r ≠ 0` and fixed `w > 0`, as `tau → ∞` the finite-length Warburg impedance
converges to the semi-infinite one `warburg (r * √tau) w` scaled by the real factor
`k(tau) = 1/(√2 * tau)`, which does not depend on `w`: `k(tau) * warburg (r * √tau) w` is
`warburg (r / √(2 tau)) w`, the quotient of `finite_length_warburg r tau w` by either
tends to `1`, and at `tau = 10^6`, `w = 1` the quotient is within `10^-6` of `1`. -/
theorem finite_length_warburg_asymptote (r w : ℝ) (hr : r ≠ 0) (hw : 0 < w) :
    (∀ tau : ℝ, 0 < tau →
        ofReal (1 / (Real.sqrt 2 * tau)) * warburg Real.sqrt (r * Real.sqrt tau) w =
          warburg Real.sqrt (r / Real.sqrt (2 * tau)) w) ∧
      Filter.Tendsto (fun tau : ℝ => toComplex (finite_length_warburg csqrt ctanh r tau w /
          (ofReal (1 / (Real.sqrt 2 * tau)) * warburg Real.sqrt (r * Real.sqrt tau) w)))
        Filter.atTop (nhds 1) ∧
      Filter.Tendsto (fun tau : ℝ => toComplex (finite_length_warburg csqrt ctanh r tau w /
          warburg Real.sqrt (r / Real.sqrt (2 * tau)) w)) Filter.atTop (nhds 1) ∧
      Complex.abs (toComplex (finite_length_warburg csqrt ctanh r 1000000 1 /
          warburg Real.sqrt (r / Real.sqrt (2 * 1000000)) 1) - 1) < 1 / 1000000 := by
  refine ⟨fun tau htau => scaled_warburg r tau w htau, ?_, quotient_tendsto_one r w hr hw, ?_⟩
  · refine (quotient_tendsto_one r w hr hw).congr' ?_
    filter_upwards [Filter.eventually_gt_atTop 0] with tau htau
    rw [scaled_warburg r tau w htau]
  · exact lt_of_le_of_lt (quotient_bound r 1000000 1 hr (by norm_num) (by norm_num))
      bound_at_million

/-- Witness of C8 at `r = 1`, `w = 1`. -/
theorem finite_length_warburg_asymptote_witness :
    (∀ tau : ℝ, 0 < tau →
        ofReal (1 / (Real.sqrt 2 * tau)) * warburg Real.sqrt (1 * Real.sqrt tau) 1 =
          warburg Real.sqrt (1 / Real.sqrt (2 * tau)) 1) ∧
      Filter.Tendsto (fun tau : ℝ => toComplex (finite_length_warburg csqrt ctanh 1 tau 1 /
          (ofReal (1 / (Real.sqrt 2 * tau)) * warburg Real.sqrt (1 * Real.sqrt tau) 1)))
        Filter.atTop (nhds 1) ∧
      Filter.Tendsto (fun tau : ℝ => toComplex (finite_length_warburg csqrt ctanh 1 tau 1 /
          warburg Real.sqrt (1 / Real.sqrt (2 * tau)) 1)) Filter.atTop (nhds 1) ∧
      Complex.abs (toComplex (finite_length_warburg csqrt ctanh 1 1000000 1 /
          warburg Real.sqrt (1 / Real.sqrt (2 * 1000000)) 1) - 1) < 1 / 1000000 :=
  finite_length_warburg_asymptote 1 1 (by norm_num) (by norm_num)

end Asymptotic

/-! ## The batch evaluators -/

section BatchLemmas

theorem gsl_complex_rect_eta {K : Type} (z : DComplex K) : gsl_complex_rect (creal z) (cimag z) = z := rfl

/-- Loop invariant shared by the two sweep loops: a loop of the source's shape, entered at
counter `i ≤ |w|` with `|w| ≤ |Z|`, ends at counter `|w|` with every entry `j` of `Z` in
`[i, |w|)` overwritten by `formula w[j]` and every other entry, `p` and `w` untouched. -/
theorem sweep_loop_spec {K : Type} (formula : K → DComplex K)
    (loop : Nat → Mem K → Option (Nat × Mem K))
    (hloop : ∀ i m, loop i m =
      if i < m.w.length then
        match gsl_vector_get m.w i with
        | none => none
        | some wi =>
          match gsl_vector_complex_set m.Z i
              (gsl_complex_rect (creal (formula wi)) (cimag (formula wi))) with
          | none => none
          | some Z' => loop (i + 1) { p := m.p, w := m.w, Z := Z' }
      else some (i, m)) :
    ∀ (k i : Nat) (m : Mem K), m.w.length - i = k → i ≤ m.w.length →
      m.w.length ≤ m.Z.length →
      ∃ Z' : gsl_vector_complex K,
        loop i m = some (m.w.length, { p := m.p, w := m.w, Z := Z' }) ∧
        Z'.length = m.Z.length ∧
        ∀ j, Z'[j]? = if i ≤ j ∧ j < m.w.length then (m.w[j]?).map formula else m.Z[j]? := by
  intro k
  induction k with
  | zero =>
    intro i m hk hi hZ
    have hiw : i = m.w.length := by omega
    refine ⟨m.Z, ?_, rfl, ?_⟩
    · rw [hloop, if_neg (by omega), hiw]
    · intro j
      rw [if_neg (by omega)]
  | succ k ih =>
    intro i m hk hi hZ
    have hiw : i < m.w.length := by omega
    have hget : gsl_vector_get m.w i = some m.w[i] := by
      simp [gsl_vector_get, List.getElem?_eq_getElem hiw]
    have hset : gsl_vector_complex_set m.Z i (formula m.w[i]) =
        some (m.Z.set i (formula m.w[i])) := by
      simp only [gsl_vector_complex_set]
      rw [if_pos (by omega)]
    obtain ⟨Z', hrun, hlen, hval⟩ :=
      ih (i + 1) { p := m.p, w := m.w, Z := m.Z.set i (formula m.w[i]) } (by simp; omega)
        (by simp; omega) (by simp; omega)
    refine ⟨Z', ?_, ?_, ?_⟩
    · rw [hloop, if_pos hiw, hget]
      simp only [gsl_complex_rect_eta, hset]
      exact hrun
    · simpa using hlen
    · intro j
      rw [hval j]
      simp only
      by_cases hj : i = j
      · subst hj
        rw [if_neg (by omega), if_pos ⟨le_refl _, hiw⟩, List.getElem?_set,
          if_pos rfl, if_pos (by omega), List.getElem?_eq_getElem hiw]
        rfl
      · rw [List.getElem?_set_ne hj]
        by_cases hc : i + 1 ≤ j ∧ j < m.w.length
        · rw [if_pos hc, if_pos ⟨by omega, hc.2⟩]
        · rw [if_neg hc, if_neg (by omega)]

theorem gsl_resistance_loop_spec {K : Type} [Field K] (r : K) (m : Mem K) (hZ : m.w.length ≤ m.Z.length) :
    ∃ Z' : gsl_vector_complex K,
      gsl_resistance_loop r 0 m = some (m.w.length, { p := m.p, w := m.w, Z := Z' }) ∧
      Z'.length = m.Z.length ∧
      ∀ j, Z'[j]? = if j < m.w.length then (m.w[j]?).map (resistance r) else m.Z[j]? := by
  have h := sweep_loop_spec (resistance r) (gsl_resistance_loop r)
    (fun i m => by rw [gsl_resistance_loop]) m.w.length 0 m rfl (Nat.zero_le _) hZ
  simpa using h

theorem gsl_inductance_loop_spec {K : Type} [Field K] (l : K) (m : Mem K) (hZ : m.w.length ≤ m.Z.length) :
    ∃ Z' : gsl_vector_complex K,
      gsl_inductance_loop l 0 m = some (m.w.length, { p := m.p, w := m.w, Z := Z' }) ∧
      Z'.length = m.Z.length ∧
      ∀ j, Z'[j]? = if j < m.w.length then (m.w[j]?).map (inductance l) else m.Z[j]? := by
  have h := sweep_loop_spec (inductance l) (gsl_inductance_loop l)
    (fun i m => by rw [gsl_inductance_loop]) m.w.length 0 m rfl (Nat.zero_le _) hZ
  simpa using h

end BatchLemmas

section BatchClaims

open DComplex

/-- C9: for every parameter vector `p` with `p[0] = l`, every sweep `w` of length `n` and
every output vector `Z` of length at least `n`, `gsl_inductance` returns, and afterwards
each `Z[i]` with `i < n` is `inductance l w[i]`, of real part `0` and imaginary part
`l * w[i]`, with `p`, `w` and the length of `Z` unchanged. -/
theorem gsl_inductance_batch (l : ℝ) (m : Mem ℝ) (hp : m.p[0]? = some l)
    (hZ : m.w.length ≤ m.Z.length) :
    ∃ Z' : gsl_vector_complex ℝ,
      gsl_inductance m = some { p := m.p, w := m.w, Z := Z' } ∧
      Z'.length = m.Z.length ∧
      ∀ (i : Nat) (hi : i < m.w.length),
        Z'[i]? = some (inductance l m.w[i]) ∧ Z'[i]? = some ⟨0, l * m.w[i]⟩ := by
  obtain ⟨Z', hrun, hlen, hval⟩ := gsl_inductance_loop_spec l m hZ
  refine ⟨Z', ?_, hlen, ?_⟩
  · simp only [gsl_inductance, gsl_vector_get, hp, hrun, Option.map_some']
  · intro i hi
    have h1 : Z'[i]? = some (inductance l m.w[i]) := by
      rw [hval i, if_pos hi, List.getElem?_eq_getElem hi, Option.map_some']
    refine ⟨h1, ?_⟩
    rw [h1]
    congr 1
    ext <;> simp [inductance]

/-- Witness of C9: `l = 0.01` over the sweep `[1, 10, 100, 1000]` gives imaginary parts
`[0.01, 0.1, 1, 10]` and real parts all `0`. -/
theorem gsl_inductance_batch_witness :
    gsl_inductance
        ({ p := [1 / 100], w := [1, 10, 100, 1000],
           Z := [⟨7, 7⟩, ⟨7, 7⟩, ⟨7, 7⟩, ⟨7, 7⟩] } : Mem ℝ) =
      some { p := [1 / 100], w := [1, 10, 100, 1000],
             Z := [⟨0, 1 / 100⟩, ⟨0, 1 / 10⟩, ⟨0, 1⟩, ⟨0, 10⟩] } := by
  obtain ⟨Z', hrun, hlen, hval⟩ := gsl_inductance_batch (1 / 100)
    { p := [1 / 100], w := [1, 10, 100, 1000], Z := [⟨7, 7⟩, ⟨7, 7⟩, ⟨7, 7⟩, ⟨7, 7⟩] }
    rfl (by simp)
  rw [hrun]
  have hZ' : Z' = [⟨0, 1 / 100⟩, ⟨0, 1 / 10⟩, ⟨0, 1⟩, ⟨0, 10⟩] := by
    apply List.ext_getElem?
    intro i
    by_cases hi : i < 4
    · have h := (hval i (by simpa using hi)).2
      rw [h]
      interval_cases i <;> norm_num
    · rw [List.getElem?_eq_none (by simp at hlen; omega), List.getElem?_eq_none (by simp; omega)]
  rw [hZ']

/-- C10: for every parameter vector `p` with `p[0] = r`, every sweep `w` of length `n` and
every output vector `Z` of length at least `n`, `gsl_resistance` returns, and afterwards
each `Z[i]` with `i < n` is `resistance r w[i] = r + 0j` whatever the frequencies are: the
first `n` entries of `Z` are the pointwise map of the scalar formula over `w`, in order. -/
theorem gsl_resistance_batch (r : ℝ) (m : Mem ℝ) (hp : m.p[0]? = some r)
    (hZ : m.w.length ≤ m.Z.length) :
    ∃ Z' : gsl_vector_complex ℝ,
      gsl_resistance m = some { p := m.p, w := m.w, Z := Z' } ∧
      Z'.length = m.Z.length ∧
      Z'.take m.w.length = spec_batch (resistance r) m.w ∧
      ∀ (i : Nat) (hi : i < m.w.length),
        Z'[i]? = some (resistance r m.w[i]) ∧ Z'[i]? = some ⟨r, 0⟩ := by
  obtain ⟨Z', hrun, hlen, hval⟩ := gsl_resistance_loop_spec r m hZ
  refine ⟨Z', ?_, hlen, ?_, ?_⟩
  · simp only [gsl_resistance, gsl_vector_get, hp, hrun, Option.map_some']
  · apply List.ext_getElem?
    intro j
    rw [List.getElem?_take, hval j, spec_batch, List.getElem?_map]
    by_cases hj : j < m.w.length
    · rw [if_pos hj, if_pos hj]
    · rw [if_neg hj, List.getElem?_eq_none (by omega), Option.map_none']
  · intro i hi
    have h1 : Z'[i]? = some (resistance r m.w[i]) := by
      rw [hval i, if_pos hi, List.getElem?_eq_getElem hi, Option.map_some']
    exact ⟨h1, h1⟩

/-- Witness of C10: `r = 100` over the sweep `[1, 10, 0, -3]` (any frequencies). -/
theorem gsl_resistance_batch_witness :
    gsl_resistance
        ({ p := [100], w := [1, 10, 0, -3],
           Z := [⟨7, 7⟩, ⟨7, 7⟩, ⟨7, 7⟩, ⟨7, 7⟩] } : Mem ℝ) =
      some { p := [100], w := [1, 10, 0, -3],
             Z := [⟨100, 0⟩, ⟨100, 0⟩, ⟨100, 0⟩, ⟨100, 0⟩] } := by
  obtain ⟨Z', hrun, hlen, htake, _⟩ := gsl_resistance_batch 100
    { p := [100], w := [1, 10, 0, -3], Z := [⟨7, 7⟩, ⟨7, 7⟩, ⟨7, 7⟩, ⟨7, 7⟩] }
    rfl (by simp)
  rw [hrun]
  have hZ' : Z' = [⟨100, 0⟩, ⟨100, 0⟩, ⟨100, 0⟩, ⟨100, 0⟩] := by
    have hlen' : Z'.length = 4 := hlen
    have htake' : Z'.take 4 = spec_batch (resistance 100) [1, 10, 0, -3] := htake
    rw [← List.take_of_length_le (le_of_eq hlen'), htake']
    simp [spec_batch, resistance, ofReal]
  rw [hZ']

end BatchClaims

/-! ## Elements and circuits -/

section ElementClaims

/-- C11 (as stated, refuted): the element `EisElement__new__ ("C1", C)` has no parameter
vector (`p` is `NULL`), so `parameters.length == arity(kind)` does not hold for it. -/
theorem capacitor_without_parameters :
    ∃ e : EisElement ℝ,
      EisElement__new__ (fun _ => 0) "C1" element_type.C = some e ∧ e.p = none ∧
        arity e.type = 1 ∧ ¬ parameters_invariant e :=
  ⟨EisElement__init__ (fun _ => 0) "C1" element_type.C, rfl, rfl, rfl,
    fun h => Option.noConfusion h⟩

/-- C11 (amended): for every name and every kind, `EisElement__new__` returns an element;
for the kinds `R` and `L` it satisfies `parameters.length == arity(kind)`, both being `1`;
for every other kind the parameter vector is absent (`NULL`) and the invariant fails. -/
theorem element_parameters_length (uninit : Nat → ℝ) (name : String) (kind : element_type) :
    ∃ e : EisElement ℝ,
      EisElement__new__ uninit name kind = some e ∧
        ((kind = element_type.R ∨ kind = element_type.L) →
          parameters_invariant e ∧ e.p.map List.length = some 1 ∧ arity kind = 1) ∧
        (kind ≠ element_type.R → kind ≠ element_type.L →
          e.p = none ∧ ¬ parameters_invariant e) := by
  refine ⟨EisElement__init__ uninit name kind, rfl, ?_, ?_⟩
  · rintro (h | h) <;> subst h <;> exact ⟨rfl, rfl, rfl⟩
  · intro hR hL
    cases kind
    · exact absurd rfl hR
    · exact ⟨rfl, fun h => Option.noConfusion h⟩
    · exact absurd rfl hL
    · exact ⟨rfl, fun h => Option.noConfusion h⟩
    · exact ⟨rfl, fun h => Option.noConfusion h⟩
    · exact ⟨rfl, fun h => Option.noConfusion h⟩

/-- C12: `EisElement__new__ (name, kind)` binds a formula exactly when `kind` is `R` or
`L`: for `R` the element's `Z` is `gsl_resistance` and its parameter vector has length 1,
for `L` its `Z` is `gsl_inductance` and its parameter vector has length 1, for every other
kind `Z` and the parameter vector are both `NULL`; the type is `kind` and the name is
`name` in all cases. -/
theorem element_binding (uninit : Nat → ℝ) (name : String) (kind : element_type) :
    ∃ e : EisElement ℝ,
      EisElement__new__ uninit name kind = some e ∧ e.type = kind ∧ e.name = name ∧
        (e.Z.isSome = true ↔ kind = element_type.R ∨ kind = element_type.L) ∧
        (kind = element_type.R →
          e.Z = some gsl_resistance ∧ e.p.map List.length = some 1) ∧
        (kind = element_type.L →
          e.Z = some gsl_inductance ∧ e.p.map List.length = some 1) ∧
        (kind ≠ element_type.R → kind ≠ element_type.L → e.Z = none ∧ e.p = none) := by
  refine ⟨EisElement__init__ uninit name kind, rfl, ?_⟩
  cases kind <;> simp [EisElement__init__, gsl_vector_alloc]

end ElementClaims

section CircuitClaims

theorem circuit_elements_eq (uninit : Nat → Nat → ℝ) (name repr : String) :
    (EisCircuit__init__ uninit name repr).elements =
      [some (EisElement__init__ (uninit 0) "E1" element_type.R),
       some (EisElement__init__ (uninit 1) "E2" element_type.R),
       some (EisElement__init__ (uninit 2) "E3" element_type.R)] := by
  simp [EisCircuit__init__, EisElement__new__, List.range_succ]

/-- C13: for every name and every representation string, `EisCircuit__new__` returns a
circuit whose elements are exactly three resistor elements, named `"E1"`, `"E2"`, `"E3"`
in this order (pairwise distinct, non-empty names), each of kind `R`, bound to
`gsl_resistance`, with a parameter vector of length 1, whatever `repr` contains; the
circuit's name is `name` and its representation is `repr`. -/
theorem circuit_three_resistors (uninit : Nat → Nat → ℝ) (name repr : String) :
    ∃ (c : EisCircuit ℝ) (e1 e2 e3 : EisElement ℝ),
      EisCircuit__new__ uninit name repr = some c ∧ c.name = name ∧ c.repr = repr ∧
        c.elements = [some e1, some e2, some e3] ∧
        e1.name = "E1" ∧ e2.name = "E2" ∧ e3.name = "E3" ∧
        e1.name ≠ e2.name ∧ e1.name ≠ e3.name ∧ e2.name ≠ e3.name ∧
        e1.name ≠ "" ∧ e2.name ≠ "" ∧ e3.name ≠ "" ∧
        (∀ e ∈ [e1, e2, e3], e.type = element_type.R ∧ e.Z = some gsl_resistance ∧
          e.p.map List.length = some 1) ∧
        ∀ repr' : String, ∃ c' : EisCircuit ℝ,
          EisCircuit__new__ uninit name repr' = some c' ∧ c'.elements = c.elements := by
  refine ⟨EisCircuit__init__ uninit name repr,
    EisElement__init__ (uninit 0) "E1" element_type.R,
    EisElement__init__ (uninit 1) "E2" element_type.R,
    EisElement__init__ (uninit 2) "E3" element_type.R,
    rfl, rfl, rfl, circuit_elements_eq uninit name repr, rfl, rfl, rfl,
    ?_, ?_, ?_, ?_, ?_, ?_, ?_, ?_⟩
  · show "E1" ≠ "E2"
    decide
  · show "E1" ≠ "E3"
    decide
  · show "E2" ≠ "E3"
    decide
  · show "E1" ≠ ""
    decide
  · show "E2" ≠ ""
    decide
  · show "E3" ≠ ""
    decide
  · intro e he
    simp only [List.mem_cons, List.mem_singleton, List.not_mem_nil, or_false] at he
    rcases he with h | h | h <;> subst h <;> exact ⟨rfl, rfl, rfl⟩
  · intro repr'
    exact ⟨EisCircuit__init__ uninit name repr', rfl,
      (circuit_elements_eq uninit name repr').trans (circuit_elements_eq uninit name repr).symm⟩

/-- C14 (as stated, refuted): `EisCircuit__new__ (name, "(E1+E9)")` does not fail: it
returns a circuit object holding the representation `"(E1+E9)"` although no element of the
circuit is named `"E9"`. -/
theorem circuit_undeclared_reference_accepted :
    EisCircuit__new__ (fun _ _ => (0 : ℝ)) "cell" "(E1+E9)" ≠ none ∧
      ∃ c : EisCircuit ℝ,
        EisCircuit__new__ (fun _ _ => (0 : ℝ)) "cell" "(E1+E9)" = some c ∧
          c.repr = "(E1+E9)" ∧
          c.elements.map (Option.map EisElement.name) = [some "E1", some "E2", some "E3"] ∧
          some "E9" ∉ c.elements.map (Option.map EisElement.name) := by
  refine ⟨fun h => Option.noConfusion h, EisCircuit__init__ (fun _ _ => 0) "cell" "(E1+E9)",
    rfl, rfl, ?_, ?_⟩
  · rw [circuit_elements_eq]
    rfl
  · rw [circuit_elements_eq]
    decide

/-- C14 (amended): circuit construction never fails: for every name and every
representation, also one that references an undeclared element name, `EisCircuit__new__`
returns a circuit object; it stores the representation unread and holds the elements
`"E1"`, `"E2"`, `"E3"`. -/
theorem circuit_construction_total (uninit : Nat → Nat → ℝ) (name repr : String) :
    EisCircuit__new__ uninit name repr ≠ none ∧
      ∃ c : EisCircuit ℝ,
        EisCircuit__new__ uninit name repr = some c ∧ c.name = name ∧ c.repr = repr ∧
          c.elements.map (Option.map EisElement.name) = [some "E1", some "E2", some "E3"] := by
  refine ⟨fun h => Option.noConfusion h, EisCircuit__init__ uninit name repr, rfl, rfl, rfl, ?_⟩
  rw [circuit_elements_eq]
  rfl

end CircuitClaims

section DcLimit

open DComplex

theorem hasDerivAt_tanh_zero : HasDerivAt Complex.tanh 1 0 := by
  have h := (Complex.hasDerivAt_sinh 0).div (Complex.hasDerivAt_cosh 0)
    (by simp : Complex.cosh 0 ≠ 0)
  have hfun : Complex.tanh = fun z => Complex.sinh z / Complex.cosh z := by
    funext z
    exact Complex.tanh_eq_sinh_div_cosh z
  rw [hfun]
  simpa using h

/-- The quotient `tanh z / z` tends to `1` as `z → 0`, `z ≠ 0`. -/
theorem tendsto_tanh_div_self :
    Filter.Tendsto (fun z : ℂ => Complex.tanh z / z) (nhdsWithin 0 {0}ᶜ) (nhds 1) := by
  have h := hasDerivAt_iff_tendsto_slope.mp hasDerivAt_tanh_zero
  refine h.congr (fun z => ?_)
  rw [slope_def_field, Complex.tanh_zero, sub_zero, sub_zero]

/-- The argument `s = √(tau w / 2) (1 + j)` tends to `0` through non-zero values as
`w → 0` from above. -/
theorem tendsto_diag_zero (tau : ℝ) (htau : 0 < tau) :
    Filter.Tendsto (fun w : ℝ => (Real.sqrt (tau * w / 2) : ℂ) * (1 + Complex.I))
      (nhdsWithin 0 (Set.Ioi 0)) (nhdsWithin 0 {0}ᶜ) := by
  rw [tendsto_nhdsWithin_iff]
  constructor
  · have hc : Continuous fun w : ℝ => (Real.sqrt (tau * w / 2) : ℂ) * (1 + Complex.I) := by
      continuity
    have h0 := hc.tendsto 0
    simp only [mul_zero, zero_div, Real.sqrt_zero, Complex.ofReal_zero, zero_mul] at h0
    exact tendsto_nhdsWithin_of_tendsto_nhds h0
  · filter_upwards [self_mem_nhdsWithin] with w hw
    exact diag_ne_zero _ (sqrt_half_pos tau w (mul_pos htau hw))

theorem toComplex_csqrt_arg_zero (tau : ℝ) :
    toComplex (csqrt (I * ofReal tau * ofReal 0)) = 0 := by
  rw [toComplex_csqrt, toComplex_arg, mul_zero, Complex.ofReal_zero, mul_zero,
    Complex.zero_cpow (by norm_num)]

/-- C15: for every `r` and every `tau > 0`, `finite_length_warburg r tau w` tends to
`r + 0j` as `w → 0` from above, although at `w = 0` itself the expression is the quotient
of `r * tanh 0 = 0` by `√0 = 0`. -/
theorem finite_length_warburg_dc_limit (r tau : ℝ) (htau : 0 < tau) :
    Filter.Tendsto (fun w : ℝ => toComplex (finite_length_warburg csqrt ctanh r tau w))
        (nhdsWithin 0 (Set.Ioi 0)) (nhds (toComplex (ofReal r))) ∧
      csqrt (I * ofReal tau * ofReal 0) = ofReal 0 ∧
      ofReal r * ctanh (csqrt (I * ofReal tau * ofReal 0)) = ofReal 0 := by
  refine ⟨?_, ?_, ?_⟩
  · have h1 := (tendsto_tanh_div_self.comp (tendsto_diag_zero tau htau)).const_mul (r : ℂ)
    rw [mul_one] at h1
    refine h1.congr' ?_
    filter_upwards [self_mem_nhdsWithin] with w hw
    rw [toComplex_finite_length_warburg r tau w (mul_pos htau hw), mul_div_assoc]
    rfl
  · apply toComplex_injective
    rw [toComplex_csqrt_arg_zero, toComplex_ofReal, Complex.ofReal_zero]
  · apply toComplex_injective
    rw [toComplex_mul, toComplex_ctanh, toComplex_csqrt_arg_zero, Complex.tanh_zero,
      mul_zero, toComplex_ofReal, Complex.ofReal_zero]

/-- Witness of C15 at `r = 10`, `tau = 1/2`. -/
theorem finite_length_warburg_dc_limit_witness :
    Filter.Tendsto (fun w : ℝ => toComplex (finite_length_warburg csqrt ctanh 10 (1 / 2) w))
        (nhdsWithin 0 (Set.Ioi 0)) (nhds (toComplex (ofReal 10))) ∧
      csqrt (I * ofReal (1 / 2) * ofReal 0) = ofReal 0 ∧
      ofReal 10 * ctanh (csqrt (I * ofReal (1 / 2) * ofReal 0)) = ofReal 0 :=
  finite_length_warburg_dc_limit 10 (1 / 2) (by norm_num)

end DcLimit

section ProductOnly

open DComplex

theorem arg_eq {K : Type} [Field K] (tau w : K) :
    (I * ofReal tau * ofReal w : DComplex K) = ⟨0, tau * w⟩ := by
  ext <;> simp

/-- C16: both finite Warburg impedances depend on `tau` and `w` only through the product
`tau * w`, whatever `csqrt` and `ctanh` compute: if `tau * w = tau' * w'` then
`finite_length_warburg` and `finite_space_warburg` take the same value at `(r, tau, w)`
and `(r, tau', w')`; in particular each is symmetric under swapping `tau` and `w`. -/
theorem finite_warburg_product_only (csqrt ctanh : DComplex ℝ → DComplex ℝ)
    (r tau w tau' w' : ℝ) (h : tau * w = tau' * w') :
    finite_length_warburg csqrt ctanh r tau w = finite_length_warburg csqrt ctanh r tau' w' ∧
      finite_space_warburg csqrt ctanh r tau w = finite_space_warburg csqrt ctanh r tau' w' ∧
      finite_length_warburg csqrt ctanh r tau w = finite_length_warburg csqrt ctanh r w tau ∧
      finite_space_warburg csqrt ctanh r tau w = finite_space_warburg csqrt ctanh r w tau := by
  simp only [finite_length_warburg, finite_space_warburg, arg_eq, h, mul_comm w tau, and_self]

/-- Witness of C16 at `r = 10`, `tau * w = 2 * 3 = 1 * 6`, with the libm functions. -/
theorem finite_warburg_product_only_witness :
    finite_length_warburg csqrt ctanh 10 2 3 = finite_length_warburg csqrt ctanh 10 1 6 ∧
      finite_space_warburg csqrt ctanh 10 2 3 = finite_space_warburg csqrt ctanh 10 1 6 ∧
      finite_length_warburg csqrt ctanh 10 2 3 = finite_length_warburg csqrt ctanh 10 3 2 ∧
      finite_space_warburg csqrt ctanh 10 2 3 = finite_space_warburg csqrt ctanh 10 3 2 :=
  finite_warburg_product_only csqrt ctanh 10 2 3 1 6 (by norm_num)

end ProductOnly

section BatchFrame

theorem gsl_resistance_run {K : Type} [Field K] (m : Mem K) (r : K) (hp : m.p[0]? = some r)
    (hZ : m.w.length ≤ m.Z.length) :
    ∃ Z' : gsl_vector_complex K,
      gsl_resistance_loop r 0 m = some (m.w.length, { p := m.p, w := m.w, Z := Z' }) ∧
      gsl_resistance m = some { p := m.p, w := m.w, Z := Z' } ∧
      Z'.length = m.Z.length ∧
      ∀ j, Z'[j]? = if j < m.w.length then (m.w[j]?).map (resistance r) else m.Z[j]? := by
  obtain ⟨Z', hrun, hlen, hval⟩ := gsl_resistance_loop_spec r m hZ
  refine ⟨Z', hrun, ?_, hlen, hval⟩
  simp only [gsl_resistance, gsl_vector_get, hp, hrun, Option.map_some']

theorem gsl_inductance_run {K : Type} [Field K] (m : Mem K) (l : K) (hp : m.p[0]? = some l)
    (hZ : m.w.length ≤ m.Z.length) :
    ∃ Z' : gsl_vector_complex K,
      gsl_inductance_loop l 0 m = some (m.w.length, { p := m.p, w := m.w, Z := Z' }) ∧
      gsl_inductance m = some { p := m.p, w := m.w, Z := Z' } ∧
      Z'.length = m.Z.length ∧
      ∀ j, Z'[j]? = if j < m.w.length then (m.w[j]?).map (inductance l) else m.Z[j]? := by
  obtain ⟨Z', hrun, hlen, hval⟩ := gsl_inductance_loop_spec l m hZ
  refine ⟨Z', hrun, ?_, hlen, hval⟩
  simp only [gsl_inductance, gsl_vector_get, hp, hrun, Option.map_some']

theorem head_of_nonempty {K : Type} (p : List K) (hp : 1 ≤ p.length) :
    ∃ r, p[0]? = some r := by
  cases p with
  | nil => simp at hp
  | cons a t => exact ⟨a, by simp⟩

theorem gsl_resistance_frame {K : Type} [Field K] (m m' : Mem K)
    (hZ : m.w.length ≤ m.Z.length) (h : gsl_resistance m = some m') :
    m'.p = m.p ∧ m'.w = m.w ∧ m'.Z.length = m.Z.length ∧
      ∀ i, m.w.length ≤ i → m'.Z[i]? = m.Z[i]? := by
  cases hp : m.p[0]? with
  | none => simp [gsl_resistance, gsl_vector_get, hp] at h
  | some r =>
    obtain ⟨Z', _, hrun, hlen, hval⟩ := gsl_resistance_run m r hp hZ
    rw [hrun] at h
    cases h
    refine ⟨rfl, rfl, hlen, fun i hi => ?_⟩
    show Z'[i]? = m.Z[i]?
    rw [hval i, if_neg (by omega)]

theorem gsl_inductance_frame {K : Type} [Field K] (m m' : Mem K)
    (hZ : m.w.length ≤ m.Z.length) (h : gsl_inductance m = some m') :
    m'.p = m.p ∧ m'.w = m.w ∧ m'.Z.length = m.Z.length ∧
      ∀ i, m.w.length ≤ i → m'.Z[i]? = m.Z[i]? := by
  cases hp : m.p[0]? with
  | none => simp [gsl_inductance, gsl_vector_get, hp] at h
  | some r =>
    obtain ⟨Z', _, hrun, hlen, hval⟩ := gsl_inductance_run m r hp hZ
    rw [hrun] at h
    cases h
    refine ⟨rfl, rfl, hlen, fun i hi => ?_⟩
    show Z'[i]? = m.Z[i]?
    rw [hval i, if_neg (by omega)]

/-- C17: `gsl_resistance` and `gsl_inductance` write only the first `|w|` entries of the
output: whenever `|Z| ≥ |w|`, in the memory after either call every entry `Z[i]` with
`i ≥ |w|` is unchanged, the length of `Z` is unchanged, and `p` and `w` are as before;
and either call does return such a memory as soon as `p` has an entry `p[0]`. -/
theorem gsl_batch_frame (m : Mem ℝ) (hZ : m.w.length ≤ m.Z.length) :
    (∀ m' : Mem ℝ, gsl_resistance m = some m' →
        m'.p = m.p ∧ m'.w = m.w ∧ m'.Z.length = m.Z.length ∧
          ∀ i, m.w.length ≤ i → m'.Z[i]? = m.Z[i]?) ∧
      (∀ m' : Mem ℝ, gsl_inductance m = some m' →
        m'.p = m.p ∧ m'.w = m.w ∧ m'.Z.length = m.Z.length ∧
          ∀ i, m.w.length ≤ i → m'.Z[i]? = m.Z[i]?) ∧
      (1 ≤ m.p.length →
        (∃ m' : Mem ℝ, gsl_resistance m = some m') ∧
          ∃ m' : Mem ℝ, gsl_inductance m = some m') := by
  refine ⟨fun m' h => gsl_resistance_frame m m' hZ h,
    fun m' h => gsl_inductance_frame m m' hZ h, fun hp => ?_⟩
  obtain ⟨r, hr⟩ := head_of_nonempty m.p hp
  obtain ⟨Z1, _, h1, _⟩ := gsl_resistance_run m r hr hZ
  obtain ⟨Z2, _, h2, _⟩ := gsl_inductance_run m r hr hZ
  exact ⟨⟨_, h1⟩, ⟨_, h2⟩⟩

/-- Witness of C17: `r = 100` over the sweep `[1, 10]` into an output vector of three
entries leaves the third entry, the length, `p` and `w` as they were. -/
theorem gsl_batch_frame_witness :
    ∃ m' : Mem ℝ,
      gsl_resistance
          ({ p := [100], w := [1, 10], Z := [⟨7, 7⟩, ⟨7, 7⟩, ⟨5, 5⟩] } : Mem ℝ) = some m' ∧
        m'.p = [100] ∧ m'.w = [1, 10] ∧ m'.Z.length = 3 ∧ m'.Z[2]? = some ⟨5, 5⟩ := by
  obtain ⟨hR, _, hex⟩ := gsl_batch_frame
    { p := [100], w := [1, 10], Z := [⟨7, 7⟩, ⟨7, 7⟩, ⟨5, 5⟩] } (by simp)
  obtain ⟨⟨m', hm'⟩, _⟩ := hex (by simp)
  obtain ⟨h1, h2, h3, h4⟩ := hR m' hm'
  exact ⟨m', hm', h1, h2, h3, h4 2 (by simp)⟩

end BatchFrame

section BatchSafety

theorem unchanged_of_empty_sweep {K : Type} (m : Mem K) (Z' : gsl_vector_complex K)
    (formula : K → DComplex K) (hw : m.w = [])
    (hval : ∀ j, Z'[j]? = if j < m.w.length then (m.w[j]?).map formula else m.Z[j]?) :
    ({ p := m.p, w := m.w, Z := Z' } : Mem K) = m := by
  have hZ : Z' = m.Z := by
    apply List.ext_getElem?
    intro j
    rw [hval j, hw]
    simp
  rw [hZ]

/-- C18: under the precondition `|p| ≥ 1` and `|Z| ≥ |w|`, every vector access of
`gsl_resistance` and `gsl_inductance` is within bounds: the read of `p[0]` succeeds, for
every `i < |w|` the read of `w[i]` and the write of `Z[i]` succeed, no range check fails,
and each loop ends with its counter, started at `0` and incremented once per iteration,
equal to `|w|`; with an empty sweep the memory, the output included, is unchanged. -/
theorem gsl_batch_in_bounds (m : Mem ℝ) (hp : 1 ≤ m.p.length)
    (hZ : m.w.length ≤ m.Z.length) :
    ∃ r : ℝ,
      gsl_vector_get m.p 0 = some r ∧
        (∀ i, i < m.w.length →
          gsl_vector_get m.w i ≠ none ∧
            ∀ (Z' : gsl_vector_complex ℝ) (z : DComplex ℝ), Z'.length = m.Z.length →
              gsl_vector_complex_set Z' i z ≠ none) ∧
        (∃ Z' : gsl_vector_complex ℝ,
          gsl_resistance_loop r 0 m = some (m.w.length, { p := m.p, w := m.w, Z := Z' }) ∧
            gsl_resistance m = some { p := m.p, w := m.w, Z := Z' }) ∧
        (∃ Z' : gsl_vector_complex ℝ,
          gsl_inductance_loop r 0 m = some (m.w.length, { p := m.p, w := m.w, Z := Z' }) ∧
            gsl_inductance m = some { p := m.p, w := m.w, Z := Z' }) ∧
        gsl_resistance m ≠ none ∧ gsl_inductance m ≠ none ∧
        (m.w = [] → gsl_resistance m = some m ∧ gsl_inductance m = some m) := by
  obtain ⟨r, hr⟩ := head_of_nonempty m.p hp
  obtain ⟨Z1, hl1, h1, _, hv1⟩ := gsl_resistance_run m r hr hZ
  obtain ⟨Z2, hl2, h2, _, hv2⟩ := gsl_inductance_run m r hr hZ
  refine ⟨r, hr, ?_, ⟨Z1, hl1, h1⟩, ⟨Z2, hl2, h2⟩, ?_, ?_, ?_⟩
  · intro i hi
    refine ⟨?_, ?_⟩
    · simp only [gsl_vector_get, List.getElem?_eq_getElem hi]
      exact fun h => Option.noConfusion h
    · intro Z' z hlen
      simp only [gsl_vector_complex_set]
      rw [if_pos (by omega)]
      exact fun h => Option.noConfusion h
  · rw [h1]
    exact fun h => Option.noConfusion h
  · rw [h2]
    exact fun h => Option.noConfusion h
  · intro hw
    rw [h1, h2, unchanged_of_empty_sweep m Z1 _ hw hv1,
      unchanged_of_empty_sweep m Z2 _ hw hv2]
    exact ⟨rfl, rfl⟩

/-- Witness of C18: `p = [100]`, the sweep `[1, 10]` and an output vector of three
entries; both loops end with counter `2`. -/
theorem gsl_batch_in_bounds_witness :
    (∃ Z' : gsl_vector_complex ℝ,
        gsl_resistance_loop 100 0
            ({ p := [100], w := [1, 10], Z := [⟨7, 7⟩, ⟨7, 7⟩, ⟨5, 5⟩] } : Mem ℝ) =
          some (2, { p := [100], w := [1, 10], Z := Z' })) ∧
      (∃ Z' : gsl_vector_complex ℝ,
        gsl_inductance_loop 100 0
            ({ p := [100], w := [1, 10], Z := [⟨7, 7⟩, ⟨7, 7⟩, ⟨5, 5⟩] } : Mem ℝ) =
          some (2, { p := [100], w := [1, 10], Z := Z' })) ∧
      gsl_resistance
          ({ p := [100], w := [1, 10], Z := [⟨7, 7⟩, ⟨7, 7⟩, ⟨5, 5⟩] } : Mem ℝ) ≠ none ∧
      gsl_inductance
          ({ p := [100], w := [1, 10], Z := [⟨7, 7⟩, ⟨7, 7⟩, ⟨5, 5⟩] } : Mem ℝ) ≠ none := by
  obtain ⟨r, hr, _, ⟨Z1, hl1, _⟩, ⟨Z2, hl2, _⟩, hR, hL, _⟩ := gsl_batch_in_bounds
    { p := [100], w := [1, 10], Z := [⟨7, 7⟩, ⟨7, 7⟩, ⟨5, 5⟩] } (by simp) (by simp)
  have hr' : r = 100 := by
    simp [gsl_vector_get] at hr
    exact hr.symm
  subst hr'
  exact ⟨⟨Z1, hl1⟩, ⟨Z2, hl2⟩, hR, hL⟩

end BatchSafety

end Eis
